import Mathlib

/-!
Verification development for the fire-group detection pipeline
(`scripts/fire_group_detection.py` and `scripts/analyze_group_infractions.py`).

The embedding models:
* a daily fire cluster (the dict built by `detect_daily_clusters`) as the
  structure `Cluster`, with coordinates as exact rationals (the CSV input
  carries decimal coordinates, exactly representable in `ℚ`);
* the geometry helper `distance_km` over the reals (it uses `sqrt`/`cos`);
* the classifier `classify_trajectory`;
* the linker `track_clusters`;
* the per-day clusterer `detect_daily_clusters` (parametric in the DBSCAN
  labelling, which is provided by the external `sklearn` collaborator);
* the boundary analysis `analyze_trajectory_response` (parametric in the
  boundary membership predicate, provided by the external `shapely`
  collaborator).

Floating point is modelled by exact real/rational arithmetic; the cosmetic
`round(x, k)` calls the Python code applies to metric fields before
reporting them are presentational and are not modelled.
-/

/-- A daily fire cluster: the record built per (day, DBSCAN label) by
`detect_daily_clusters`.  `date` is a day number (days since an epoch;
`pandas` date subtraction in the source yields exactly this difference in
days), `cid` the DBSCAN label of the cluster within its day. -/
structure Cluster where
  date : ℕ
  cid : ℤ
  lat : ℚ
  lon : ℚ
  lat_min : ℚ
  lat_max : ℚ
  fires : ℕ
  frp : ℚ
  spread_km : ℚ
deriving DecidableEq, Inhabited

/-- `np.radians`: degrees to radians. -/
noncomputable def radians (x : ℝ) : ℝ := x * Real.pi / 180

/-- `distance_km(lat1, lon1, lat2, lon2)`:
`lat_diff = abs(lat2-lat1)*111`,
`lon_diff = abs(lon2-lon1)*111*cos(radians((lat1+lat2)/2))`,
result `sqrt(lat_diff**2 + lon_diff**2)`. -/
noncomputable def distance_km (lat1 lon1 lat2 lon2 : ℚ) : ℝ :=
  Real.sqrt ((|(lat2 : ℝ) - (lat1 : ℝ)| * 111) ^ 2 +
    (|(lon2 : ℝ) - (lon1 : ℝ)| * 111 *
      Real.cos (radians (((lat1 : ℝ) + (lat2 : ℝ)) / 2))) ^ 2)

/-- The behaviour labels returned by `classify_trajectory`. -/
inductive GroupType where
  | transhumance
  | transhumance_slow
  | herder_local
  | herder_fast
  | management_fast
  | management_vehicle
  | local_burning
  | local_stationary
  | village_persistent
  | unknown
deriving DecidableEq

/-- `net_south = (start['lat'] - end['lat']) * 111` (start and end are
`traj[0]` and `traj[-1]`). -/
def netSouth (t : List Cluster) : ℚ := (t.headI.lat - t.getLastI.lat) * 111

/-- `net_east = (end['lon'] - start['lon']) * 111` (note: no latitude
correction in the source). -/
def netEast (t : List Cluster) : ℚ := (t.getLastI.lon - t.headI.lon) * 111

/-- `movements`: the list of `distance_km` between consecutive clusters
(`for i in range(1, len(traj))`). -/
noncomputable def movements (t : List Cluster) : List ℝ :=
  (t.zip t.tail).map fun p => distance_km p.1.lat p.1.lon p.2.lat p.2.lon

/-- `avg_speed = np.mean(movements) if movements else 0`. -/
noncomputable def avgSpeed (t : List Cluster) : ℝ :=
  match movements t with
  | [] => 0
  | x :: xs => (x :: xs).sum / ((x :: xs).length : ℝ)

/-- `max_speed = max(movements) if movements else 0`. -/
noncomputable def maxSpeed (t : List Cluster) : ℝ :=
  match movements t with
  | [] => 0
  | x :: xs => xs.foldl max x

/-- `avg_spread = np.mean([c['spread_km'] for c in traj])` (only evaluated on
trajectories of length ≥ 3, where the list is nonempty). -/
def avgSpread (t : List Cluster) : ℚ :=
  (t.map (·.spread_km)).sum / ((t.map (·.spread_km)).length : ℚ)

/-- The metrics dict built by `classify_trajectory` (unrounded values; the
source rounds some entries to one decimal for reporting only). -/
structure Metrics where
  days : ℕ
  fires : ℕ
  net_south_km : ℚ
  net_east_km : ℚ
  avg_speed_km_day : ℝ
  max_speed_km_day : ℝ
  avg_spread_km : ℚ
  start_date : ℕ
  end_date : ℕ
  start_lat : ℚ
  start_lon : ℚ
  end_lat : ℚ
  end_lon : ℚ

/-- The metrics computed by `classify_trajectory` for `len(traj) >= 3`. -/
noncomputable def metricsOf (t : List Cluster) : Metrics where
  days := t.length
  fires := (t.map (·.fires)).sum
  net_south_km := netSouth t
  net_east_km := netEast t
  avg_speed_km_day := avgSpeed t
  max_speed_km_day := maxSpeed t
  avg_spread_km := avgSpread t
  start_date := t.headI.date
  end_date := t.getLastI.date
  start_lat := t.headI.lat
  start_lon := t.headI.lon
  end_lat := t.getLastI.lat
  end_lon := t.getLastI.lon

open Classical in
/-- The decision chain of `classify_trajectory` (every branch of the source
returns the same metrics dict, so the label computation is factored out). -/
noncomputable def classifyLabel (t : List Cluster) : GroupType :=
  if 30 < avgSpeed t then .management_fast
  else if 15 < avgSpeed t then
    (if 30 < avgSpread t then .management_vehicle else .herder_fast)
  else if 5 < avgSpeed t then
    (if 20 < netSouth t then .transhumance else .herder_local)
  else if 2 < avgSpeed t then
    (if 10 < t.length ∧ 15 < netSouth t then .transhumance_slow
     else .local_burning)
  else
    (if 7 < t.length then .village_persistent else .local_stationary)

/-- `classify_trajectory(traj)`: `('unknown', {})` when `len(traj) < 3`
(modelled as `(.unknown, none)`), otherwise the label together with the
metrics dict (identical in every branch of the source). -/
noncomputable def classify_trajectory (t : List Cluster) :
    GroupType × Option Metrics :=
  if t.length < 3 then (.unknown, none)
  else (classifyLabel t, some (metricsOf t))

open Classical in
/-- The decision rules exactly as the specification states them (first match
wins, explicit ranges): used to check `classifyLabel` against the spec. -/
noncomputable def specClassify (s : ℝ) (spread netS : ℚ) (daysActive : ℕ) :
    GroupType :=
  if s > 30 then .management_fast
  else if 15 < s ∧ s ≤ 30 then
    (if spread > 30 then .management_vehicle else .herder_fast)
  else if 5 < s ∧ s ≤ 15 then
    (if netS > 20 then .transhumance else .herder_local)
  else if 2 < s ∧ s ≤ 5 then
    (if daysActive > 10 ∧ netS > 15 then .transhumance_slow
     else .local_burning)
  else
    (if daysActive > 7 then .village_persistent else .local_stationary)

theorem classifyLabel_eq_specClassify (t : List Cluster) :
    classifyLabel t = specClassify (avgSpeed t) (avgSpread t) (netSouth t)
      t.length := by
  unfold classifyLabel specClassify
  by_cases h1 : 30 < avgSpeed t
  · simp [h1, GT.gt]
  · by_cases h2 : 15 < avgSpeed t
    · simp [h1, h2, not_lt.mp h1, GT.gt]
    · by_cases h3 : 5 < avgSpeed t
      · simp [h1, h2, h3, not_lt.mp h2, GT.gt]
      · by_cases h4 : 2 < avgSpeed t
        · simp [h1, h2, h3, h4, not_lt.mp h3, GT.gt]
        · simp [h1, h2, h3, h4, GT.gt]

/-- C2: `classify_trajectory` returns `('unknown', {})` for trajectories of
fewer than 3 clusters; otherwise its label is decided by the first matching
rule of the spec's ordered rule list (thresholds 30 / 15 / 5 / 2 km/day,
spread 30 km, net-south 20 / 15 km, days 10 / 7), applied to the computed
metrics. -/
theorem classify_trajectory_rules (t : List Cluster) :
    classify_trajectory t =
      if t.length < 3 then (GroupType.unknown, none)
      else (specClassify (avgSpeed t) (avgSpread t) (netSouth t) t.length,
            some (metricsOf t)) := by
  unfold classify_trajectory
  by_cases h : t.length < 3
  · simp [h]
  · simp [h, classifyLabel_eq_specClassify]

/-- The spec's formula for `net_east_km`, with the cosine latitude
correction it asserts (`(last.lon − first.lon) × 111 × cos(meanLat)`,
`meanLat` the mean of the endpoint latitudes as in `distance_km`). -/
noncomputable def specNetEast (t : List Cluster) : ℝ :=
  ((t.getLastI.lon - t.headI.lon) * 111 : ℚ) *
    Real.cos (radians (((t.headI.lat : ℝ) + (t.getLastI.lat : ℝ)) / 2))

/-- A three-cluster trajectory along latitude 60°N moving one degree east:
here `cos(meanLat) = 1/2`, separating the code's uncorrected `net_east`
from the spec's corrected formula. -/
def ex7 : List Cluster :=
  [⟨0, 0, 60, 0, 60, 60, 8, 1, 1⟩,
   ⟨1, 0, 60, 0, 60, 60, 8, 1, 1⟩,
   ⟨2, 0, 60, 1, 60, 60, 8, 1, 1⟩]

/-- C7 counterexample: on `ex7` (length 3) the code's `net_east_km` metric is
`111`, while the spec's latitude-corrected formula evaluates to `111/2`;
they differ, so the claimed equality fails. -/
theorem netEast_not_latitude_corrected :
    3 ≤ ex7.length ∧
    (classify_trajectory ex7).2.map Metrics.net_east_km = some 111 ∧
    specNetEast ex7 = 111 / 2 ∧
    ((111 : ℚ) : ℝ) ≠ 111 / 2 := by
  have hhead : ex7.headI = ⟨0, 0, 60, 0, 60, 60, 8, 1, 1⟩ := rfl
  have hlast : ex7.getLastI = ⟨2, 0, 60, 1, 60, 60, 8, 1, 1⟩ := rfl
  refine ⟨by decide, ?_, ?_, by norm_num⟩
  · show (if ex7.length < 3 then ((GroupType.unknown, none) :
        GroupType × Option Metrics)
      else (classifyLabel ex7, some (metricsOf ex7))).2.map
        Metrics.net_east_km = some 111
    rw [if_neg (by decide)]
    show some (netEast ex7) = some 111
    unfold netEast
    rw [hhead, hlast]
    norm_num
  · unfold specNetEast radians
    rw [hhead, hlast]
    show ((1 - 0 : ℚ) * 111 : ℚ) *
        Real.cos (((60 : ℚ) + ((60 : ℚ) : ℝ)) / 2 * Real.pi / 180) = 111 / 2
    rw [show (((60 : ℚ) : ℝ) + ((60 : ℚ) : ℝ)) / 2 * Real.pi / 180
        = Real.pi / 3 by push_cast; ring, Real.cos_pi_div_three]
    push_cast
    ring

/-- C7 amended: for trajectories of length ≥ 3 the classifier's
`net_east_km` metric equals `(last.lon − first.lon) × 111` with **no**
cosine latitude correction, and `net_south_km` equals
`(first.lat − last.lat) × 111`. -/
theorem net_metrics_formulas (t : List Cluster) (h : 3 ≤ t.length) :
    (classify_trajectory t).2.map Metrics.net_east_km =
      some ((t.getLastI.lon - t.headI.lon) * 111) ∧
    (classify_trajectory t).2.map Metrics.net_south_km =
      some ((t.headI.lat - t.getLastI.lat) * 111) := by
  unfold classify_trajectory
  rw [if_neg (by omega)]
  exact ⟨rfl, rfl⟩

theorem net_metrics_formulas_witness :
    3 ≤ ex7.length ∧
    ((classify_trajectory ex7).2.map Metrics.net_east_km =
      some ((ex7.getLastI.lon - ex7.headI.lon) * 111) ∧
    (classify_trajectory ex7).2.map Metrics.net_south_km =
      some ((ex7.headI.lat - ex7.getLastI.lat) * 111)) :=
  ⟨by decide, net_metrics_formulas ex7 (by decide)⟩

/-- Everything of a cluster except its `date`: used to state that the
classifier's speed metrics do not depend on the dates. -/
def shapeOf (c : Cluster) : ℤ × ℚ × ℚ × ℚ × ℚ × ℕ × ℚ × ℚ :=
  (c.cid, c.lat, c.lon, c.lat_min, c.lat_max, c.fires, c.frp, c.spread_km)

theorem shapeOf_fields {a b : Cluster} (h : shapeOf a = shapeOf b) :
    a.cid = b.cid ∧ a.lat = b.lat ∧ a.lon = b.lon ∧ a.fires = b.fires ∧
      a.spread_km = b.spread_km := by
  simp only [shapeOf, Prod.mk.injEq] at h
  tauto

theorem movements_congr :
    ∀ t1 t2 : List Cluster, t1.map shapeOf = t2.map shapeOf →
      movements t1 = movements t2 := by
  intro t1
  induction t1 with
  | nil => intro t2 h; cases t2 with
    | nil => rfl
    | cons b l => simp at h
  | cons a t1 ih =>
    intro t2 h
    cases t2 with
    | nil => simp at h
    | cons b t2 =>
      simp only [List.map_cons, List.cons.injEq] at h
      cases t1 with
      | nil =>
        cases t2 with
        | nil => rfl
        | cons d t2' => simp at h
      | cons c t1' =>
        cases t2 with
        | nil => simp at h
        | cons d t2' =>
          have hm := ih (d :: t2') h.2
          have hcd : shapeOf c = shapeOf d := by
            simpa using congrArg List.headI h.2
          obtain ⟨-, halat, halon, -, -⟩ := shapeOf_fields h.1
          obtain ⟨-, hclat, hclon, -, -⟩ := shapeOf_fields hcd
          show distance_km a.lat a.lon c.lat c.lon :: movements (c :: t1')
            = distance_km b.lat b.lon d.lat d.lon :: movements (d :: t2')
          rw [halat, halon, hclat, hclon, hm]

theorem headI_shape_congr {t1 t2 : List Cluster}
    (h : t1.map shapeOf = t2.map shapeOf) :
    shapeOf t1.headI = shapeOf t2.headI := by
  cases t1 <;> cases t2 <;> simp_all [List.headI]

theorem getLastI_shape_congr :
    ∀ t1 t2 : List Cluster, t1.map shapeOf = t2.map shapeOf →
      shapeOf t1.getLastI = shapeOf t2.getLastI := by
  intro t1
  induction t1 with
  | nil => intro t2 h; cases t2 with
    | nil => rfl
    | cons b l => simp at h
  | cons a t1 ih =>
    intro t2 h
    cases t2 with
    | nil => simp at h
    | cons b t2 =>
      simp only [List.map_cons, List.cons.injEq] at h
      cases t1 with
      | nil =>
        cases t2 with
        | nil => simpa [List.getLastI] using h.1
        | cons d t2' => simp at h
      | cons c t1' =>
        cases t2 with
        | nil => simp at h
        | cons d t2' =>
          have hrec := ih (d :: t2') h.2
          rw [List.getLastI_eq_getLast?, List.getLastI_eq_getLast?,
            List.getLast?_cons_cons, List.getLast?_cons_cons,
            ← List.getLastI_eq_getLast?, ← List.getLastI_eq_getLast?]
          exact hrec

/-- Projection trick: a per-field map equality follows from the shape map
equality. -/
theorem map_field_congr {β : Type} (f : Cluster → β)
    (g : ℤ × ℚ × ℚ × ℚ × ℚ × ℕ × ℚ × ℚ → β)
    (hfg : ∀ c, g (shapeOf c) = f c)
    {t1 t2 : List Cluster} (h : t1.map shapeOf = t2.map shapeOf) :
    t1.map f = t2.map f := by
  have e1 : t1.map f = (t1.map shapeOf).map g := by
    rw [List.map_map]; exact (List.map_congr_left fun c _ => (hfg c).symm)
  have e2 : t2.map f = (t2.map shapeOf).map g := by
    rw [List.map_map]; exact (List.map_congr_left fun c _ => (hfg c).symm)
  rw [e1, e2, h]

theorem init_le_foldl_max {α : Type} [LinearOrder α] :
    ∀ (xs : List α) (x : α), x ≤ xs.foldl max x := by
  intro xs
  induction xs with
  | nil => intro x; exact le_refl x
  | cons z zs ih =>
    intro x
    exact le_trans (le_max_left x z) (ih (max x z))

theorem foldl_max_mem {α : Type} [LinearOrder α] :
    ∀ (xs : List α) (x : α), xs.foldl max x ∈ x :: xs := by
  intro xs
  induction xs with
  | nil => intro x; simp
  | cons z zs ih =>
    intro x
    simp only [List.foldl_cons]
    rcases List.mem_cons.mp (ih (max x z)) with h' | h'
    · rcases max_choice x z with hc | hc
      · rw [h', hc]; exact List.mem_cons_self _ _
      · rw [h', hc]; exact List.mem_cons_of_mem _ (List.mem_cons_self _ _)
    · exact List.mem_cons_of_mem _ (List.mem_cons_of_mem _ h')

theorem le_foldl_max {α : Type} [LinearOrder α] :
    ∀ (xs : List α) (x y : α), y ∈ x :: xs → y ≤ xs.foldl max x := by
  intro xs
  induction xs with
  | nil => intro x y hy; simp at hy; simp [hy]
  | cons z zs ih =>
    intro x y hy
    simp only [List.foldl_cons]
    rcases List.mem_cons.mp hy with h' | h'
    · rw [h']
      exact le_trans (le_max_left x z) (init_le_foldl_max zs (max x z))
    · rcases List.mem_cons.mp h' with h'' | h''
      · rw [h'']
        exact le_trans (le_max_right x z) (init_le_foldl_max zs (max x z))
      · exact ih (max x z) y (List.mem_cons_of_mem _ h'')

theorem movements_length (t : List Cluster) :
    (movements t).length = t.length - 1 := by
  simp only [movements, List.length_map, List.length_zip]
  cases t <;> simp

/-- C10: the classifier's `avg_speed_km_day` is the arithmetic mean of the
`n − 1` consecutive-cluster distances and `max_speed_km_day` is their
maximum, with no division by elapsed calendar days; consequently two
trajectories identical except for their clusters' dates receive identical
speed metrics and identical labels. -/
theorem speeds_ignore_dates (t1 t2 : List Cluster)
    (h : t1.map shapeOf = t2.map shapeOf) :
    avgSpeed t1 = avgSpeed t2 ∧
    maxSpeed t1 = maxSpeed t2 ∧
    (classify_trajectory t1).1 = (classify_trajectory t2).1 ∧
    (3 ≤ t1.length →
      (movements t1).length = t1.length - 1 ∧
      avgSpeed t1 = (movements t1).sum / ((t1.length - 1 : ℕ) : ℝ) ∧
      maxSpeed t1 ∈ movements t1 ∧
      ∀ x ∈ movements t1, x ≤ maxSpeed t1) := by
  have hmov := movements_congr t1 t2 h
  have hlen : t1.length = t2.length := by
    have := congrArg List.length h
    simpa using this
  have havg : avgSpeed t1 = avgSpeed t2 := by
    unfold avgSpeed; rw [hmov]
  have hmax : maxSpeed t1 = maxSpeed t2 := by
    unfold maxSpeed; rw [hmov]
  have hspread : avgSpread t1 = avgSpread t2 := by
    unfold avgSpread
    rw [map_field_congr (·.spread_km) (fun s => s.2.2.2.2.2.2.2)
      (fun c => rfl) h]
  have hns : netSouth t1 = netSouth t2 := by
    unfold netSouth
    have h1 := headI_shape_congr h
    have h2 := getLastI_shape_congr t1 t2 h
    rw [(shapeOf_fields h1).2.1, (shapeOf_fields h2).2.1]
  refine ⟨havg, hmax, ?_, ?_⟩
  · unfold classify_trajectory
    by_cases hl : t1.length < 3
    · rw [if_pos hl, if_pos (hlen ▸ hl)]
    · rw [if_neg hl, if_neg (hlen ▸ hl)]
      show classifyLabel t1 = classifyLabel t2
      rw [classifyLabel_eq_specClassify, classifyLabel_eq_specClassify,
        havg, hspread, hns, hlen]
  · intro h3
    have hne : movements t1 ≠ [] := by
      have hml := movements_length t1
      intro hc
      rw [hc] at hml
      simp at hml
      omega
    obtain ⟨x, xs, hx⟩ := List.exists_cons_of_ne_nil hne
    have havg2 : avgSpeed t1 = (x :: xs).sum / ((x :: xs).length : ℝ) := by
      simp only [avgSpeed, hx]
    have hmax2 : maxSpeed t1 = xs.foldl max x := by
      simp only [maxSpeed, hx]
    have hlen2 : (x :: xs).length = t1.length - 1 := by
      rw [← hx]; exact movements_length t1
    refine ⟨movements_length t1, ?_, ?_, ?_⟩
    · rw [havg2, hx, hlen2]
    · rw [hmax2, hx]
      exact foldl_max_mem xs x
    · intro y hy
      rw [hmax2]
      exact le_foldl_max xs x y (hx ▸ hy)

/-- Concrete three-cluster trajectory on consecutive dates `0, 1, 2`. -/
def ex10a : List Cluster :=
  [⟨0, 0, 6, 20, 6, 6, 8, 1, 1⟩,
   ⟨1, 0, 7, 20, 7, 7, 8, 1, 1⟩,
   ⟨2, 0, 8, 20, 8, 8, 8, 1, 1⟩]

/-- Same clusters as `ex10a` but on dates `0, 3, 9` (different gaps). -/
def ex10b : List Cluster :=
  [⟨0, 0, 6, 20, 6, 6, 8, 1, 1⟩,
   ⟨3, 0, 7, 20, 7, 7, 8, 1, 1⟩,
   ⟨9, 0, 8, 20, 8, 8, 8, 1, 1⟩]

theorem speeds_ignore_dates_witness :
    ex10a.map shapeOf = ex10b.map shapeOf ∧
    (avgSpeed ex10a = avgSpeed ex10b ∧
     maxSpeed ex10a = maxSpeed ex10b ∧
     (classify_trajectory ex10a).1 = (classify_trajectory ex10b).1 ∧
     (3 ≤ ex10a.length →
       (movements ex10a).length = ex10a.length - 1 ∧
       avgSpeed ex10a = (movements ex10a).sum / ((ex10a.length - 1 : ℕ) : ℝ) ∧
       maxSpeed ex10a ∈ movements ex10a ∧
       ∀ x ∈ movements ex10a, x ≤ maxSpeed ex10a)) :=
  ⟨rfl, speeds_ignore_dates ex10a ex10b rfl⟩

/-! ## Boundary interaction analysis (`analyze_trajectory_response`) -/

/-- The outcome labels of `analyze_trajectory_response`. -/
inductive Outcome where
  | STOPPED_INSIDE
  | TRANSITED
  | STOPPED_AFTER_EXIT
deriving DecidableEq

/-- The per-point record built in the `point_status` loop of
`analyze_trajectory_response`. -/
structure PointStatus where
  idx : ℕ
  inside : Bool
  date : ℕ
  lat : ℚ
  lon : ℚ
  fires : ℕ
deriving DecidableEq, Inhabited

/-- One entry of the `point_status` list: the boundary test is
`boundary_prep.contains(Point(cluster['lon'], cluster['lat']))`, modelled by
the predicate `contains lon lat`. -/
def mkPS (contains : ℚ → ℚ → Bool) (i : ℕ) (c : Cluster) : PointStatus :=
  ⟨i, contains c.lon c.lat, c.date, c.lat, c.lon, c.fires⟩

/-- `for i, cluster in enumerate(traj)`, starting the counter at `i`. -/
def psAux (contains : ℚ → ℚ → Bool) : ℕ → List Cluster → List PointStatus
  | _, [] => []
  | i, c :: cs => mkPS contains i c :: psAux contains (i + 1) cs

/-- The `point_status` list of `analyze_trajectory_response`. -/
def point_status (contains : ℚ → ℚ → Bool) (traj : List Cluster) :
    List PointStatus :=
  psAux contains 0 traj

theorem psAux_length (contains : ℚ → ℚ → Bool) :
    ∀ (l : List Cluster) (i : ℕ), (psAux contains i l).length = l.length := by
  intro l
  induction l with
  | nil => intro i; rfl
  | cons c cs ih => intro i; simp [psAux, ih]

theorem psAux_get (contains : ℚ → ℚ → Bool) :
    ∀ (l : List Cluster) (i j : ℕ) (h : j < l.length),
      (psAux contains i l).get ⟨j, by rw [psAux_length]; exact h⟩ =
        mkPS contains (i + j) (l.get ⟨j, h⟩) := by
  intro l
  induction l with
  | nil => intro i j h; exact absurd h (by simp)
  | cons c cs ih =>
    intro i j h
    cases j with
    | zero => simp [psAux]
    | succ j' =>
      have h' : j' < cs.length := by simpa using h
      have := ih (i + 1) j' h'
      simpa [psAux, Nat.add_assoc, Nat.add_comm 1 j'] using this

theorem psAux_mem (contains : ℚ → ℚ → Bool) (l : List Cluster) (i : ℕ)
    (p : PointStatus) :
    p ∈ psAux contains i l ↔
      ∃ j, ∃ h : j < l.length, p = mkPS contains (i + j) (l.get ⟨j, h⟩) := by
  rw [List.mem_iff_get]
  constructor
  · rintro ⟨⟨j, hj⟩, hp⟩
    have hj' : j < l.length := by rw [← psAux_length contains l i]; exact hj
    exact ⟨j, hj', by rw [← hp, ← psAux_get contains l i j hj']⟩
  · rintro ⟨j, hj, hp⟩
    refine ⟨⟨j, by rw [psAux_length]; exact hj⟩, ?_⟩
    rw [psAux_get contains l i j hj, hp]

theorem psAux_idx_ge (contains : ℚ → ℚ → Bool) :
    ∀ (l : List Cluster) (i : ℕ) (p : PointStatus),
      p ∈ psAux contains i l → i ≤ p.idx := by
  intro l
  induction l with
  | nil => intro i p hp; simp [psAux] at hp
  | cons c cs ih =>
    intro i p hp
    rcases List.mem_cons.mp hp with h | h
    · rw [h]; exact le_refl i
    · exact le_trans (Nat.le_succ i) (ih (i + 1) p h)

theorem psAux_pairwise_idx (contains : ℚ → ℚ → Bool) :
    ∀ (l : List Cluster) (i : ℕ),
      List.Pairwise (fun a b => a.idx < b.idx) (psAux contains i l) := by
  intro l
  induction l with
  | nil => intro i; exact List.Pairwise.nil
  | cons c cs ih =>
    intro i
    refine List.pairwise_cons.mpr ⟨?_, ih (i + 1)⟩
    intro p hp
    exact lt_of_lt_of_le (Nat.lt_succ_self i) (psAux_idx_ge contains cs (i + 1) p hp)

theorem getLastI_mem {α : Type} [Inhabited α] :
    ∀ (l : List α), l ≠ [] → l.getLastI ∈ l := by
  intro l
  induction l with
  | nil => intro h; exact absurd rfl h
  | cons a l ih =>
    intro _
    cases l with
    | nil => simp [List.getLastI]
    | cons b l' =>
      rw [List.getLastI_eq_getLast?, List.getLast?_cons_cons,
        ← List.getLastI_eq_getLast?]
      exact List.mem_cons_of_mem a (ih (by simp))

theorem last_max_of_pairwise :
    ∀ (l : List PointStatus), List.Pairwise (fun a b => a.idx < b.idx) l →
      ∀ x ∈ l, x.idx ≤ l.getLastI.idx := by
  intro l
  induction l with
  | nil => intro _ x hx; simp at hx
  | cons a l ih =>
    intro hp x hx
    obtain ⟨ha, hl⟩ := List.pairwise_cons.mp hp
    cases l with
    | nil =>
      rcases List.mem_cons.mp hx with h | h
      · rw [h]; simp [List.getLastI]
      · simp at h
    | cons b l' =>
      have hlast : (a :: b :: l').getLastI = (b :: l').getLastI := by
        rw [List.getLastI_eq_getLast?, List.getLast?_cons_cons,
          ← List.getLastI_eq_getLast?]
      rw [hlast]
      rcases List.mem_cons.mp hx with h | h
      · rw [h]
        exact le_of_lt (ha _ (getLastI_mem (b :: l') (by simp)))
      · exact ih hl x h

/-- The result dict of `analyze_trajectory_response` (unrounded values; the
`outcome_detail` human-readable string and the rounding of reported
coordinates are presentational and not modelled). -/
structure InteractionResult where
  trajectory_days : ℕ
  total_fires : ℕ
  origin_lat : ℚ
  origin_lon : ℚ
  origin_date : ℕ
  days_tracked_before : ℕ
  origin_track : List PointStatus
  entry_date : ℕ
  entry_lat : ℚ
  entry_lon : ℚ
  days_burning_inside : ℕ
  fires_inside : ℕ
  distance_inside_km : ℝ
  speed_inside_km_day : ℝ
  last_inside_date : ℕ
  last_inside_lat : ℚ
  last_inside_lon : ℚ
  outcome : Outcome
  days_tracked_after : ℕ
  dest_lat : ℚ
  dest_lon : ℚ
  dest_date : ℕ
  dest_track : List PointStatus
  net_south_km : ℚ

/-- `inside_distance`: `sum(distance_km(traj[i], traj[i+1]) for i in
range(first_inside_idx, last_inside_idx))`; the summands are exactly the
entries `first..last-1` of the consecutive-distance list `movements`. -/
noncomputable def insideDistance (traj : List Cluster) (first last : ℕ) : ℝ :=
  (((movements traj).drop first).take (last - first)).sum

/-- `analyze_trajectory_response(traj, boundary_prep)`. -/
noncomputable def analyze_trajectory_response (contains : ℚ → ℚ → Bool)
    (traj : List Cluster) : Option InteractionResult :=
  if traj = [] ∨ traj.length < 3 then none
  else
    let ps := point_status contains traj
    let inside_points := ps.filter (·.inside)
    if inside_points = [] then none
    else
      let first_inside_idx := inside_points.headI.idx
      let last_inside_idx := inside_points.getLastI.idx
      let before_entry := ps.filter (·.idx < first_inside_idx)
      let after_last_inside := ps.filter (fun p => last_inside_idx < p.idx)
      let outcome :=
        if after_last_inside = [] then Outcome.STOPPED_INSIDE
        else if after_last_inside.filter (fun p => !p.inside) ≠ [] then
          Outcome.TRANSITED
        else Outcome.STOPPED_AFTER_EXIT
      let days_inside := inside_points.length
      let inside_distance := insideDistance traj first_inside_idx last_inside_idx
      let speed_inside : ℝ :=
        if 0 < days_inside then inside_distance / (days_inside : ℝ) else 0
      some
        { trajectory_days := traj.length
          total_fires := (traj.map (·.fires)).sum
          origin_lat := traj.headI.lat
          origin_lon := traj.headI.lon
          origin_date := traj.headI.date
          days_tracked_before := before_entry.length
          origin_track := before_entry
          entry_date := inside_points.headI.date
          entry_lat := inside_points.headI.lat
          entry_lon := inside_points.headI.lon
          days_burning_inside := days_inside
          fires_inside := (inside_points.map (·.fires)).sum
          distance_inside_km := inside_distance
          speed_inside_km_day := speed_inside
          last_inside_date := inside_points.getLastI.date
          last_inside_lat := inside_points.getLastI.lat
          last_inside_lon := inside_points.getLastI.lon
          outcome := outcome
          days_tracked_after := after_last_inside.length
          dest_lat := traj.getLastI.lat
          dest_lon := traj.getLastI.lon
          dest_date := traj.getLastI.date
          dest_track := after_last_inside
          net_south_km := (traj.headI.lat - traj.getLastI.lat) * 111 }

theorem filter_inside_eq_nil_iff (contains : ℚ → ℚ → Bool)
    (traj : List Cluster) :
    (point_status contains traj).filter (·.inside) = [] ↔
      ∀ c ∈ traj, contains c.lon c.lat = false := by
  rw [List.filter_eq_nil_iff]
  constructor
  · intro h c hc
    obtain ⟨⟨j, hj⟩, hg⟩ := List.mem_iff_get.mp hc
    have hmem : mkPS contains (0 + j) (traj.get ⟨j, hj⟩) ∈
        point_status contains traj :=
      (psAux_mem contains traj 0 _).mpr ⟨j, hj, rfl⟩
    have hni := h _ hmem
    rw [← hg]
    simpa [mkPS] using hni
  · intro h p hp
    obtain ⟨j, hj, hp'⟩ := (psAux_mem contains traj 0 p).mp hp
    rw [hp']
    simpa [mkPS] using h _ (traj.get_mem j hj)

theorem inside_le_last (contains : ℚ → ℚ → Bool) (traj : List Cluster)
    (p : PointStatus) (hp : p ∈ point_status contains traj)
    (hin : p.inside = true) :
    p.idx ≤ ((point_status contains traj).filter (·.inside)).getLastI.idx := by
  have hmem : p ∈ (point_status contains traj).filter (·.inside) :=
    List.mem_filter.mpr ⟨hp, hin⟩
  exact last_max_of_pairwise _
    ((psAux_pairwise_idx contains traj 0).filter _) p hmem

theorem after_last_outside (contains : ℚ → ℚ → Bool) (traj : List Cluster)
    (p : PointStatus) (hp : p ∈ point_status contains traj)
    (hgt : ((point_status contains traj).filter (·.inside)).getLastI.idx <
      p.idx) :
    p.inside = false := by
  by_contra h
  have hin : p.inside = true := by
    cases hb : p.inside
    · exact absurd hb h
    · rfl
  exact absurd (inside_le_last contains traj p hp hin) (not_le.mpr hgt)

theorem analyze_outcome_spec (contains : ℚ → ℚ → Bool) (traj : List Cluster)
    (h1 : ¬(traj = [] ∨ traj.length < 3))
    (h2 : (point_status contains traj).filter (·.inside) ≠ []) :
    (analyze_trajectory_response contains traj).map InteractionResult.outcome =
      some
        (if (point_status contains traj).filter
            (fun p => ((point_status contains traj).filter
              (·.inside)).getLastI.idx < p.idx) = []
         then Outcome.STOPPED_INSIDE
         else if ((point_status contains traj).filter
            (fun p => ((point_status contains traj).filter
              (·.inside)).getLastI.idx < p.idx)).filter
                (fun p => !p.inside) ≠ []
         then Outcome.TRANSITED
         else Outcome.STOPPED_AFTER_EXIT) := by
  simp only [analyze_trajectory_response]
  rw [if_neg h1, if_neg h2]
  rfl

theorem after_filter_outside_eq_self (contains : ℚ → ℚ → Bool)
    (traj : List Cluster) :
    ((point_status contains traj).filter
      (fun p => ((point_status contains traj).filter
        (·.inside)).getLastI.idx < p.idx)).filter (fun p => !p.inside) =
    (point_status contains traj).filter
      (fun p => ((point_status contains traj).filter
        (·.inside)).getLastI.idx < p.idx) := by
  apply List.filter_eq_self.mpr
  intro p hp
  obtain ⟨hps, hgt⟩ := List.mem_filter.mp hp
  rw [after_last_outside contains traj p hps (by simpa using hgt)]
  rfl

/-- C9: `analyze_trajectory_response` never returns `STOPPED_AFTER_EXIT`:
every point after the last inside index is outside the boundary by
definition of that index, so whenever points follow the last inside
observation the `TRANSITED` branch fires. -/
theorem analyze_never_stopped_after_exit (contains : ℚ → ℚ → Bool)
    (traj : List Cluster) :
    (analyze_trajectory_response contains traj).map InteractionResult.outcome ≠
      some Outcome.STOPPED_AFTER_EXIT := by
  by_cases h1 : traj = [] ∨ traj.length < 3
  · simp [analyze_trajectory_response, h1]
  · by_cases h2 : (point_status contains traj).filter (·.inside) = []
    · simp only [analyze_trajectory_response]
      rw [if_neg h1, if_pos h2]
      simp
    · rw [analyze_outcome_spec contains traj h1 h2]
      by_cases h3 : (point_status contains traj).filter
          (fun p => ((point_status contains traj).filter
            (·.inside)).getLastI.idx < p.idx) = []
      · rw [if_pos h3]
        simp
      · rw [if_neg h3]
        rw [if_pos (by rw [after_filter_outside_eq_self]; exact h3)]
        simp

/-- The all-inside boundary predicate (a polygon containing every point). -/
def containsAll : ℚ → ℚ → Bool := fun _ _ => true

/-- A one-cluster trajectory whose only cluster is inside. -/
def ex8 : List Cluster := [⟨0, 0, 6, 20, 6, 6, 8, 1, 1⟩]

/-- C8 counterexample: `ex8` is non-empty and has a cluster inside the
boundary, yet `analyze_trajectory_response` returns `None` (the `len < 3`
guard fires), refuting "for every non-empty trajectory ... whenever at
least one cluster is inside, it returns an InteractionResult". -/
theorem analyze_short_inside_none :
    ex8 ≠ [] ∧ (∃ c ∈ ex8, containsAll c.lon c.lat = true) ∧
      analyze_trajectory_response containsAll ex8 = none := by
  refine ⟨by decide, ⟨⟨0, 0, 6, 20, 6, 6, 8, 1, 1⟩, by decide, rfl⟩, ?_⟩
  simp only [analyze_trajectory_response]
  rw [if_pos (by right; decide)]

/-- C8 amended: for every trajectory of length ≥ 3,
`analyze_trajectory_response` returns `None` iff no cluster of the
trajectory lies inside the boundary, and returns a result whenever at
least one cluster is inside. -/
theorem analyze_none_iff (contains : ℚ → ℚ → Bool) (traj : List Cluster)
    (h3 : 3 ≤ traj.length) :
    (analyze_trajectory_response contains traj = none ↔
      ∀ c ∈ traj, contains c.lon c.lat = false) ∧
    ((∃ c ∈ traj, contains c.lon c.lat = true) →
      ∃ r, analyze_trajectory_response contains traj = some r) := by
  have h1 : ¬(traj = [] ∨ traj.length < 3) := by
    rintro (he | hl)
    · rw [he] at h3; simp at h3
    · omega
  have hmain : analyze_trajectory_response contains traj = none ↔
      ∀ c ∈ traj, contains c.lon c.lat = false := by
    rw [← filter_inside_eq_nil_iff contains traj]
    by_cases h2 : (point_status contains traj).filter (·.inside) = []
    · simp only [analyze_trajectory_response]
      rw [if_neg h1, if_pos h2]
      simp [h2]
    · simp only [analyze_trajectory_response]
      rw [if_neg h1, if_neg h2]
      simp [h2]
  refine ⟨hmain, fun ⟨c, hc, hin⟩ => ?_⟩
  rw [← Option.ne_none_iff_exists']
  intro hnone
  have := hmain.mp hnone c hc
  rw [hin] at this
  exact absurd this (by decide)

theorem analyze_none_iff_witness :
    3 ≤ ex10a.length ∧
    ((analyze_trajectory_response containsAll ex10a = none ↔
      ∀ c ∈ ex10a, containsAll c.lon c.lat = false) ∧
    ((∃ c ∈ ex10a, containsAll c.lon c.lat = true) →
      ∃ r, analyze_trajectory_response containsAll ex10a = some r)) :=
  ⟨by decide, analyze_none_iff containsAll ex10a (by decide)⟩

theorem getD_eq_get {α : Type} [Inhabited α] (l : List α) (j : ℕ)
    (h : j < l.length) : l.getD j default = l.get ⟨j, h⟩ := by
  rw [List.getD_eq_getElem _ _ h]
  exact (List.get_eq_getElem l ⟨j, h⟩).symm

open Classical in
/-- C1: for a trajectory of length ≥ 3 with at least one cluster inside the
boundary, there is a well-defined last inside index `last` (inside at
`last`, outside at every later index), and `analyze_trajectory_response`
returns `STOPPED_INSIDE` exactly when `last = len - 1`; otherwise it
returns `TRANSITED` if any cluster after `last` is outside the boundary and
`STOPPED_AFTER_EXIT` otherwise. -/
theorem analyze_outcome_cases (contains : ℚ → ℚ → Bool) (traj : List Cluster)
    (h3 : 3 ≤ traj.length) (hin : ∃ c ∈ traj, contains c.lon c.lat = true) :
    ∃ last : ℕ, last < traj.length ∧
      contains (traj.getD last default).lon (traj.getD last default).lat =
        true ∧
      (∀ j, last < j → j < traj.length →
        contains (traj.getD j default).lon (traj.getD j default).lat =
          false) ∧
      (analyze_trajectory_response contains traj).map
          InteractionResult.outcome =
        some (if last = traj.length - 1 then Outcome.STOPPED_INSIDE
          else if ∃ j, last < j ∧ j < traj.length ∧
              contains (traj.getD j default).lon (traj.getD j default).lat =
                false
            then Outcome.TRANSITED
            else Outcome.STOPPED_AFTER_EXIT) := by
  have h1 : ¬(traj = [] ∨ traj.length < 3) := by
    rintro (he | hl)
    · rw [he] at h3; simp at h3
    · omega
  have h2 : (point_status contains traj).filter (·.inside) ≠ [] := by
    intro hc
    obtain ⟨c, hc1, hc2⟩ := hin
    have := (filter_inside_eq_nil_iff contains traj).mp hc c hc1
    rw [hc2] at this
    exact absurd this (by decide)
  have hlastmem : ((point_status contains traj).filter (·.inside)).getLastI ∈
      (point_status contains traj).filter (·.inside) := getLastI_mem _ h2
  obtain ⟨hpmem, hpin⟩ := List.mem_filter.mp hlastmem
  obtain ⟨j0, hj0, hpeq⟩ := (psAux_mem contains traj 0 _).mp hpmem
  have hidx : ((point_status contains traj).filter (·.inside)).getLastI.idx =
      j0 := by
    rw [hpeq]; simp [mkPS]
  have hinside : contains (traj.getD j0 default).lon
      (traj.getD j0 default).lat = true := by
    rw [getD_eq_get traj j0 hj0]
    rw [hpeq] at hpin
    simpa [mkPS] using hpin
  have hmaxm : ∀ j, j0 < j → j < traj.length →
      contains (traj.getD j default).lon (traj.getD j default).lat =
        false := by
    intro j hlt hjlen
    have hpj : mkPS contains (0 + j) (traj.get ⟨j, hjlen⟩) ∈
        point_status contains traj :=
      (psAux_mem contains traj 0 _).mpr ⟨j, hjlen, rfl⟩
    have hout : (mkPS contains (0 + j) (traj.get ⟨j, hjlen⟩)).inside =
        false := by
      apply after_last_outside contains traj _ hpj
      rw [hidx]
      simpa [mkPS] using hlt
    rw [getD_eq_get traj j hjlen]
    simpa [mkPS] using hout
  refine ⟨j0, hj0, hinside, hmaxm, ?_⟩
  rw [analyze_outcome_spec contains traj h1 h2]
  by_cases hA : j0 = traj.length - 1
  · have hafter : (point_status contains traj).filter
        (fun p => ((point_status contains traj).filter
          (·.inside)).getLastI.idx < p.idx) = [] := by
      rw [List.filter_eq_nil_iff]
      intro p hp
      obtain ⟨k, hk, hpk⟩ := (psAux_mem contains traj 0 p).mp hp
      rw [hidx, hpk]
      simp only [mkPS, decide_eq_true_eq]
      omega
    rw [if_pos hafter, if_pos hA]
  · rw [if_neg hA]
    have hlen1 : traj.length - 1 < traj.length := by omega
    have hj0lt : j0 < traj.length - 1 := by omega
    have hpN : mkPS contains (0 + (traj.length - 1))
        (traj.get ⟨traj.length - 1, hlen1⟩) ∈ point_status contains traj :=
      (psAux_mem contains traj 0 _).mpr ⟨_, hlen1, rfl⟩
    have hafter_ne : (point_status contains traj).filter
        (fun p => ((point_status contains traj).filter
          (·.inside)).getLastI.idx < p.idx) ≠ [] := by
      apply List.ne_nil_of_mem (a := mkPS contains (0 + (traj.length - 1))
        (traj.get ⟨traj.length - 1, hlen1⟩))
      apply List.mem_filter.mpr
      refine ⟨hpN, ?_⟩
      rw [hidx]
      simp only [mkPS, decide_eq_true_eq]
      omega
    rw [if_neg hafter_ne]
    rw [if_pos (by rw [after_filter_outside_eq_self]; exact hafter_ne)]
    rw [if_pos ⟨traj.length - 1, hj0lt, hlen1, hmaxm _ hj0lt hlen1⟩]

open Classical in
theorem analyze_outcome_cases_witness :
    (3 ≤ ex10a.length ∧ ∃ c ∈ ex10a, containsAll c.lon c.lat = true) ∧
    (∃ last : ℕ, last < ex10a.length ∧
      containsAll (ex10a.getD last default).lon
        (ex10a.getD last default).lat = true ∧
      (∀ j, last < j → j < ex10a.length →
        containsAll (ex10a.getD j default).lon
          (ex10a.getD j default).lat = false) ∧
      (analyze_trajectory_response containsAll ex10a).map
          InteractionResult.outcome =
        some (if last = ex10a.length - 1 then Outcome.STOPPED_INSIDE
          else if ∃ j, last < j ∧ j < ex10a.length ∧
              containsAll (ex10a.getD j default).lon
                (ex10a.getD j default).lat = false
            then Outcome.TRANSITED
            else Outcome.STOPPED_AFTER_EXIT)) :=
  ⟨⟨by decide, ⟨⟨0, 0, 6, 20, 6, 6, 8, 1, 1⟩, by decide, rfl⟩⟩,
    analyze_outcome_cases containsAll ex10a (by decide)
      ⟨⟨0, 0, 6, 20, 6, 6, 8, 1, 1⟩, by decide, rfl⟩⟩

/-! ## Daily clustering (`detect_daily_clusters`) -/

/-- One VIIRS detection row (the columns `detect_daily_clusters` reads). -/
structure Fire where
  acq_date : ℕ
  latitude : ℚ
  longitude : ℚ
  frp : ℚ
deriving DecidableEq, Inhabited

/-- `min` of a nonempty column (`.min()`); `0` on `[]` (unreachable as
used: members of a produced cluster are nonempty for a label-preserving
DBSCAN). -/
def listMinQ : List ℚ → ℚ
  | [] => 0
  | x :: xs => xs.foldl min x

/-- `max` of a nonempty column (`.max()`); `0` on `[]`. -/
def listMaxQ : List ℚ → ℚ
  | [] => 0
  | x :: xs => xs.foldl max x

/-- `.mean()`: sum over length (in `ℚ`, `x / 0 = 0` on the unreachable
empty column). -/
def qmean (l : List ℚ) : ℚ := l.sum / (l.length : ℚ)

/-- `sorted(fires_df['acq_date'].unique())`. -/
def uniqueSortedDates (fires : List Fire) : List ℕ :=
  List.insertionSort (· ≤ ·) (fires.map (·.acq_date)).dedup

/-- `fires_df[fires_df['acq_date'] == date]`. -/
def dayFires (fires : List Fire) (d : ℕ) : List Fire :=
  fires.filter (·.acq_date = d)

/-- The cluster record built for one DBSCAN label `cid` of one day:
members are the day's rows whose label equals `cid`
(`mask = clustering.labels_ == cid`). -/
def buildCluster (d : ℕ) (cid : ℤ) (members : List Fire) : Cluster where
  date := d
  cid := cid
  lat := qmean (members.map (·.latitude))
  lon := qmean (members.map (·.longitude))
  lat_min := listMinQ (members.map (·.latitude))
  lat_max := listMaxQ (members.map (·.latitude))
  fires := members.length
  frp := (members.map (·.frp)).sum
  spread_km :=
    max ((listMaxQ (members.map (·.latitude)) -
          listMinQ (members.map (·.latitude))) * 111)
        ((listMaxQ (members.map (·.longitude)) -
          listMinQ (members.map (·.longitude))) * 111)

/-- The clusters built for one day: one per distinct non-noise label in
`clustering.labels_` (the iteration order of the Python `set` is modelled
as first-occurrence order, which no claim depends on). -/
def clustersForDay (dbscan : ℚ → ℕ → List (ℚ × ℚ) → List ℤ)
    (eps_deg : ℚ) (min_samples : ℕ) (d : ℕ) (dayF : List Fire) :
    List Cluster :=
  let labels := dbscan eps_deg min_samples
    (dayF.map fun f => (f.latitude, f.longitude))
  (labels.dedup.filter (fun cid => cid ≠ -1)).map fun cid =>
    buildCluster d cid (((dayF.zip labels).filter
      (fun p => p.2 = cid)).map (·.1))

/-- `detect_daily_clusters(fires_df, eps_km, min_fires)`, parametric in the
DBSCAN labelling function (`sklearn` collaborator; it receives
`eps = eps_km / 111.0` and `min_samples = min_fires // 2` and the day's
coordinate list, and returns one integer label per row, `-1` for noise).
The returned association list (date ascending) models the Python dict:
days with fewer than `min_fires` rows are skipped (`continue`) and days
whose cluster list is empty are not inserted (`if clusters:`). -/
def detect_daily_clusters (dbscan : ℚ → ℕ → List (ℚ × ℚ) → List ℤ)
    (fires : List Fire) (eps_km : ℚ) (min_fires : ℕ) :
    List (ℕ × List Cluster) :=
  let eps_deg := eps_km / 111
  (uniqueSortedDates fires).filterMap fun d =>
    let dayF := dayFires fires d
    if dayF.length < min_fires then none
    else
      let clusters := clustersForDay dbscan eps_deg (min_fires / 2) d dayF
      if clusters = [] then none else some (d, clusters)

/-- The labels DBSCAN assigns to one day's rows, with the parameters
`detect_daily_clusters` passes: `eps = eps_km / 111.0` degrees and
`min_samples = min_fires // 2`. -/
def dayLabels (dbscan : ℚ → ℕ → List (ℚ × ℚ) → List ℤ) (eps_km : ℚ)
    (min_fires : ℕ) (fires : List Fire) (d : ℕ) : List ℤ :=
  dbscan (eps_km / 111) (min_fires / 2)
    ((dayFires fires d).map fun f => (f.latitude, f.longitude))

/-- The member rows of the cluster labelled `cid`. -/
def clusterMembers (dayF : List Fire) (labels : List ℤ) (cid : ℤ) :
    List Fire :=
  ((dayF.zip labels).filter (fun p => p.2 = cid)).map (·.1)

/-- C6: days with fewer than `min_fires` detections produce no entry at all,
and every produced cluster is the aggregate of the member rows of some
non-noise DBSCAN label (run at `eps_km / 111` degrees, `min_fires // 2`
min-samples): centroid = arithmetic mean of member lat/lon, `frp` = sum of
member radiative power, `fires` = member count, `spread_km` = max of the
latitude span × 111 and the longitude span × 111. -/
theorem detect_daily_clusters_spec (dbscan : ℚ → ℕ → List (ℚ × ℚ) → List ℤ)
    (fires : List Fire) (eps_km : ℚ) (min_fires : ℕ) :
    (∀ d, (dayFires fires d).length < min_fires →
      ∀ cs, (d, cs) ∉ detect_daily_clusters dbscan fires eps_km min_fires) ∧
    (∀ d cs, (d, cs) ∈ detect_daily_clusters dbscan fires eps_km min_fires →
      min_fires ≤ (dayFires fires d).length ∧ cs ≠ [] ∧
      ∀ c ∈ cs, ∃ cid : ℤ, cid ≠ -1 ∧
        cid ∈ dayLabels dbscan eps_km min_fires fires d ∧
        (let members := clusterMembers (dayFires fires d)
          (dayLabels dbscan eps_km min_fires fires d) cid
         c.date = d ∧ c.cid = cid ∧
         c.lat = (members.map (·.latitude)).sum / (members.length : ℚ) ∧
         c.lon = (members.map (·.longitude)).sum / (members.length : ℚ) ∧
         c.fires = members.length ∧
         c.frp = (members.map (·.frp)).sum ∧
         c.spread_km =
           max ((listMaxQ (members.map (·.latitude)) -
                 listMinQ (members.map (·.latitude))) * 111)
               ((listMaxQ (members.map (·.longitude)) -
                 listMinQ (members.map (·.longitude))) * 111))) := by
  have h2 : ∀ d cs,
      (d, cs) ∈ detect_daily_clusters dbscan fires eps_km min_fires →
      min_fires ≤ (dayFires fires d).length ∧ cs ≠ [] ∧
      ∀ c ∈ cs, ∃ cid : ℤ, cid ≠ -1 ∧
        cid ∈ dayLabels dbscan eps_km min_fires fires d ∧
        (let members := clusterMembers (dayFires fires d)
          (dayLabels dbscan eps_km min_fires fires d) cid
         c.date = d ∧ c.cid = cid ∧
         c.lat = (members.map (·.latitude)).sum / (members.length : ℚ) ∧
         c.lon = (members.map (·.longitude)).sum / (members.length : ℚ) ∧
         c.fires = members.length ∧
         c.frp = (members.map (·.frp)).sum ∧
         c.spread_km =
           max ((listMaxQ (members.map (·.latitude)) -
                 listMinQ (members.map (·.latitude))) * 111)
               ((listMaxQ (members.map (·.longitude)) -
                 listMinQ (members.map (·.longitude))) * 111)) := by
    intro d cs hmem
    simp only [detect_daily_clusters, List.mem_filterMap] at hmem
    obtain ⟨a, _, hf⟩ := hmem
    by_cases hlen : (dayFires fires a).length < min_fires
    · rw [if_pos hlen] at hf
      exact absurd hf (by simp)
    · rw [if_neg hlen] at hf
      by_cases hcl : clustersForDay dbscan (eps_km / 111) (min_fires / 2) a
          (dayFires fires a) = []
      · rw [if_pos hcl] at hf
        exact absurd hf (by simp)
      · rw [if_neg hcl] at hf
        obtain ⟨had, hcs⟩ := Prod.mk.injEq .. ▸ Option.some.inj hf
        subst had
        refine ⟨not_lt.mp hlen, hcs ▸ hcl, ?_⟩
        intro c hc
        rw [← hcs] at hc
        simp only [clustersForDay, List.mem_map, List.mem_filter,
          decide_eq_true_eq] at hc
        obtain ⟨cid, ⟨hdedup, hne⟩, hceq⟩ := hc
        refine ⟨cid, hne, List.mem_dedup.mp hdedup, ?_⟩
        rw [← hceq]
        refine ⟨rfl, rfl, ?_, ?_, rfl, rfl, by rfl⟩ <;>
          simp only [buildCluster, qmean, clusterMembers, dayLabels,
            List.length_map]
  refine ⟨?_, h2⟩
  intro d hlen cs hmem
  exact absurd (h2 d cs hmem).1 (not_le.mpr hlen)

/-- A concrete stand-in for the DBSCAN collaborator: label every row `0`. -/
def exDbscan : ℚ → ℕ → List (ℚ × ℚ) → List ℤ :=
  fun _ _ coords => coords.map fun _ => 0

theorem detect_daily_clusters_spec_witness :
    (dayFires [] 0).length < 8 ∧
    (0, ([] : List Cluster)) ∉ detect_daily_clusters exDbscan [] 15 8 :=
  ⟨by decide, (detect_daily_clusters_spec exDbscan [] 15 8).1 0 (by decide) []⟩

/-! ## Cross-day linking (`track_clusters`) -/

/-- The `used`-set key of a cluster: `(date, cid)` (the source builds the
key from the dict date and the cluster's DBSCAN label). -/
def keyOf (c : Cluster) : ℕ × ℤ := (c.date, c.cid)

/-- The keys of a trajectory's member clusters. -/
def trajKeys (t : List Cluster) : List (ℕ × ℤ) := t.map keyOf

/-- `daily_clusters[date]` (dict indexing; dict keys are unique, so taking
the first matching entry of the association list is exact). -/
def lookupDay : List (ℕ × List Cluster) → ℕ → List Cluster
  | [], _ => []
  | (d', cs) :: rest, d => if d' = d then cs else lookupDay rest d

/-- Well-formedness of the association list: every cluster stored under a
date carries that date (as `detect_daily_clusters` guarantees). -/
def WFdc (dc : List (ℕ × List Cluster)) : Prop :=
  ∀ p ∈ dc, ∀ c ∈ p.2, c.date = p.1

instance (dc : List (ℕ × List Cluster)) : Decidable (WFdc dc) := by
  unfold WFdc; infer_instance

/-- `score = dist - lat_move * 5 + size_ratio * 2` with
`lat_move = current.lat - nc.lat` and
`size_ratio = max(fires) / max(1, min(fires))` (Python true division). -/
noncomputable def linkScore (current nc : Cluster) : ℝ :=
  distance_km current.lat current.lon nc.lat nc.lon -
    ((current.lat - nc.lat : ℚ) : ℝ) * 5 +
    (((max current.fires nc.fires : ℕ) : ℝ) /
      ((max 1 (min current.fires nc.fires) : ℕ) : ℝ)) * 2

open Classical in
/-- The candidate scan of the extension loop: skip used candidates and
candidates farther than `max_link_km`, keep the lowest-scoring one
(`best_score` starts at `inf`, modelled by the `none` accumulator, which
accepts the first surviving candidate unconditionally). -/
noncomputable def pickBest (maxLink : ℚ) (used : List (ℕ × ℤ)) (d : ℕ)
    (current : Cluster) :
    List Cluster → Option (Cluster × ℝ) → Option (Cluster × ℝ)
  | [], acc => acc
  | nc :: rest, acc =>
    if (d, nc.cid) ∈ used then pickBest maxLink used d current rest acc
    else if (maxLink : ℝ) < distance_km current.lat current.lon nc.lat nc.lon
    then pickBest maxLink used d current rest acc
    else
      match acc with
      | none =>
        pickBest maxLink used d current rest (some (nc, linkScore current nc))
      | some (b, bs) =>
        if linkScore current nc < bs then
          pickBest maxLink used d current rest
            (some (nc, linkScore current nc))
        else pickBest maxLink used d current rest (some (b, bs))

open Classical in
/-- The extension loop of `track_clusters`: walk the remaining sorted dates;
stop at the first date more than `max_gap_days` after the current cluster's
date; otherwise link the best unused candidate (if any), mark it used,
re-anchor the gap window at it, and continue. -/
noncomputable def growChain (dc : List (ℕ × List Cluster)) (maxLink : ℚ)
    (maxGap : ℕ) :
    List ℕ → Cluster → List (ℕ × ℤ) → List Cluster →
    List Cluster × List (ℕ × ℤ)
  | [], _, used, traj => (traj, used)
  | d :: rest, current, used, traj =>
    if (maxGap : ℤ) < (d : ℤ) - (current.date : ℤ) then (traj, used)
    else
      match pickBest maxLink used d current (lookupDay dc d) none with
      | none => growChain dc maxLink maxGap rest current used traj
      | some (best, _) =>
        growChain dc maxLink maxGap rest best ((d, best.cid) :: used)
          (traj ++ [best])

/-- The inner loop over one day's clusters: start a chain from each unused
cluster, keep it only when it reaches length ≥ 5, and keep the `used`
marks either way. -/
noncomputable def startDay (dc : List (ℕ × List Cluster)) (maxLink : ℚ)
    (maxGap : ℕ) (d : ℕ) (rest : List ℕ) :
    List Cluster → List (List Cluster) → List (ℕ × ℤ) →
    List (List Cluster) × List (ℕ × ℤ)
  | [], trajs, used => (trajs, used)
  | c :: cs, trajs, used =>
    if (d, c.cid) ∈ used then startDay dc maxLink maxGap d rest cs trajs used
    else
      let r := growChain dc maxLink maxGap rest c ((d, c.cid) :: used) [c]
      startDay dc maxLink maxGap d rest cs
        (if 5 ≤ r.1.length then trajs ++ [r.1] else trajs) r.2

/-- The outer loop over the sorted dates. -/
noncomputable def trackOuter (dc : List (ℕ × List Cluster)) (maxLink : ℚ)
    (maxGap : ℕ) :
    List ℕ → List (List Cluster) → List (ℕ × ℤ) →
    List (List Cluster) × List (ℕ × ℤ)
  | [], trajs, used => (trajs, used)
  | d :: rest, trajs, used =>
    let r := startDay dc maxLink maxGap d rest (lookupDay dc d) trajs used
    trackOuter dc maxLink maxGap rest r.1 r.2

/-- `sorted(daily_clusters.keys())`. -/
def sortedDates (dc : List (ℕ × List Cluster)) : List ℕ :=
  List.insertionSort (· ≤ ·) (dc.map (·.1))

/-- `track_clusters(daily_clusters, max_link_km, max_gap_days)`. -/
noncomputable def track_clusters (dc : List (ℕ × List Cluster))
    (maxLink : ℚ) (maxGap : ℕ) : List (List Cluster) :=
  (trackOuter dc maxLink maxGap (sortedDates dc) [] []).1

theorem lookupDay_date {dc : List (ℕ × List Cluster)} (hwf : WFdc dc) :
    ∀ (d : ℕ) (c : Cluster), c ∈ lookupDay dc d → c.date = d := by
  induction dc with
  | nil => intro d c hc; simp [lookupDay] at hc
  | cons p rest ih =>
    intro d c hc
    obtain ⟨d', cs⟩ := p
    simp only [lookupDay] at hc
    by_cases hd : d' = d
    · rw [if_pos hd] at hc
      rw [← hd]
      exact hwf (d', cs) (List.mem_cons_self _ _) c hc
    · rw [if_neg hd] at hc
      exact ih (fun p hp => hwf p (List.mem_cons_of_mem _ hp)) d c hc

theorem pickBest_sound (maxLink : ℚ) (used : List (ℕ × ℤ)) (d : ℕ)
    (current : Cluster) :
    ∀ (cands : List Cluster) (acc : Option (Cluster × ℝ)),
      pickBest maxLink used d current cands acc = acc ∨
      ∃ c s, pickBest maxLink used d current cands acc = some (c, s) ∧
        c ∈ cands ∧ (d, c.cid) ∉ used := by
  intro cands
  induction cands with
  | nil => intro acc; left; rfl
  | cons nc rest ih =>
    intro acc
    by_cases h1 : (d, nc.cid) ∈ used
    · rw [show pickBest maxLink used d current (nc :: rest) acc =
          pickBest maxLink used d current rest acc by
        simp only [pickBest]; rw [if_pos h1]]
      rcases ih acc with h | ⟨c, s, hc, hm, hu⟩
      · left; exact h
      · right; exact ⟨c, s, hc, List.mem_cons_of_mem _ hm, hu⟩
    · by_cases h2 : (maxLink : ℝ) <
          distance_km current.lat current.lon nc.lat nc.lon
      · rw [show pickBest maxLink used d current (nc :: rest) acc =
            pickBest maxLink used d current rest acc by
          simp only [pickBest]; rw [if_neg h1, if_pos h2]]
        rcases ih acc with h | ⟨c, s, hc, hm, hu⟩
        · left; exact h
        · right; exact ⟨c, s, hc, List.mem_cons_of_mem _ hm, hu⟩
      · match acc with
        | none =>
          rw [show pickBest maxLink used d current (nc :: rest) none =
              pickBest maxLink used d current rest
                (some (nc, linkScore current nc)) by
            simp only [pickBest]; rw [if_neg h1, if_neg h2]]
          rcases ih (some (nc, linkScore current nc)) with h |
            ⟨c, s, hc, hm, hu⟩
          · right
            exact ⟨nc, linkScore current nc, h, List.mem_cons_self _ _, h1⟩
          · right; exact ⟨c, s, hc, List.mem_cons_of_mem _ hm, hu⟩
        | some (b, bs) =>
          by_cases h3 : linkScore current nc < bs
          · rw [show pickBest maxLink used d current (nc :: rest)
                (some (b, bs)) = pickBest maxLink used d current rest
                  (some (nc, linkScore current nc)) by
              simp only [pickBest]; rw [if_neg h1, if_neg h2, if_pos h3]]
            rcases ih (some (nc, linkScore current nc)) with h |
              ⟨c, s, hc, hm, hu⟩
            · right
              exact ⟨nc, linkScore current nc, h, List.mem_cons_self _ _, h1⟩
            · right; exact ⟨c, s, hc, List.mem_cons_of_mem _ hm, hu⟩
          · rw [show pickBest maxLink used d current (nc :: rest)
                (some (b, bs)) = pickBest maxLink used d current rest
                  (some (b, bs)) by
              simp only [pickBest]; rw [if_neg h1, if_neg h2, if_neg h3]]
            rcases ih (some (b, bs)) with h | ⟨c, s, hc, hm, hu⟩
            · left; exact h
            · right; exact ⟨c, s, hc, List.mem_cons_of_mem _ hm, hu⟩

theorem growChain_spec {dc : List (ℕ × List Cluster)} (hwf : WFdc dc)
    (maxLink : ℚ) (maxGap : ℕ) :
    ∀ (dates : List ℕ) (current : Cluster) (used : List (ℕ × ℤ))
      (traj : List Cluster),
      ∃ Δ : List Cluster,
        (growChain dc maxLink maxGap dates current used traj).1 =
          traj ++ Δ ∧
        (growChain dc maxLink maxGap dates current used traj).2 =
          (trajKeys Δ).reverse ++ used ∧
        (∀ b ∈ Δ, keyOf b ∉ used) ∧
        (trajKeys Δ).Nodup := by
  intro dates
  induction dates with
  | nil =>
    intro current used traj
    exact ⟨[], by simp [growChain], by simp [growChain, trajKeys],
      by simp, by simp [trajKeys]⟩
  | cons d rest ih =>
    intro current used traj
    by_cases hgap : (maxGap : ℤ) < (d : ℤ) - (current.date : ℤ)
    · refine ⟨[], ?_, ?_, by simp, by simp [trajKeys]⟩
      · simp only [growChain]; rw [if_pos hgap]; simp
      · simp only [growChain]; rw [if_pos hgap]; simp [trajKeys]
    · rcases hpb : pickBest maxLink used d current (lookupDay dc d) none with
        _ | ⟨best, s⟩
      · have heq : growChain dc maxLink maxGap (d :: rest) current used traj =
            growChain dc maxLink maxGap rest current used traj := by
          simp only [growChain]; rw [if_neg hgap, hpb]
        rw [heq]
        exact ih current used traj
      · have hbm : best ∈ lookupDay dc d ∧ (d, best.cid) ∉ used := by
          rcases pickBest_sound maxLink used d current (lookupDay dc d) none
            with h | ⟨c, s', hc, hm, hu⟩
          · rw [hpb] at h; exact absurd h (by simp)
          · rw [hpb] at hc
            obtain ⟨hc1, -⟩ := Prod.mk.injEq .. ▸ Option.some.inj hc
            rw [hc1]; exact ⟨hm, hu⟩
        have hdate : best.date = d := lookupDay_date hwf d best hbm.1
        have hkey : keyOf best = (d, best.cid) := by
          rw [keyOf, hdate]
        have heq : growChain dc maxLink maxGap (d :: rest) current used traj =
            growChain dc maxLink maxGap rest best ((d, best.cid) :: used)
              (traj ++ [best]) := by
          simp only [growChain]; rw [if_neg hgap, hpb]
        rw [heq]
        obtain ⟨Δ', e1, e2, h3, h4⟩ :=
          ih best ((d, best.cid) :: used) (traj ++ [best])
        refine ⟨best :: Δ', ?_, ?_, ?_, ?_⟩
        · rw [e1, List.append_assoc]
          rfl
        · rw [e2]
          simp only [trajKeys, List.map_cons, List.reverse_cons,
            List.append_assoc, List.singleton_append, hkey]
        · intro b hb
          rcases List.mem_cons.mp hb with hb' | hb'
          · rw [hb', hkey]; exact hbm.2
          · intro hk
            exact h3 b hb' (List.mem_cons_of_mem _ hk)
        · refine List.nodup_cons.mpr ⟨?_, ?_⟩
          · intro hk
            obtain ⟨b, hb, hbk⟩ := List.mem_map.mp hk
            exact h3 b hb (by rw [hbk, hkey]; exact List.mem_cons_self _ _)
          · exact h4

/-- The per-trajectory date discipline: strictly increasing dates, each
consecutive gap at most `max_gap_days`. -/
def DateChain (maxGap : ℕ) (t : List Cluster) : Prop :=
  t.Chain' fun a b =>
    a.date < b.date ∧ (b.date : ℤ) - (a.date : ℤ) ≤ (maxGap : ℤ)

theorem growChain_chain {dc : List (ℕ × List Cluster)} (hwf : WFdc dc)
    (maxLink : ℚ) (maxGap : ℕ) :
    ∀ (dates : List ℕ) (current : Cluster) (used : List (ℕ × ℤ))
      (traj : List Cluster),
      dates.Pairwise (· < ·) → (∀ d ∈ dates, current.date < d) →
      ∃ Δ : List Cluster,
        (growChain dc maxLink maxGap dates current used traj).1 =
          traj ++ Δ ∧
        List.Chain (fun a b =>
          a.date < b.date ∧ (b.date : ℤ) - (a.date : ℤ) ≤ (maxGap : ℤ))
          current Δ := by
  intro dates
  induction dates with
  | nil =>
    intro current used traj _ _
    exact ⟨[], by simp [growChain], List.Chain.nil⟩
  | cons d rest ih =>
    intro current used traj hsort hlt
    by_cases hgap : (maxGap : ℤ) < (d : ℤ) - (current.date : ℤ)
    · refine ⟨[], ?_, List.Chain.nil⟩
      simp only [growChain]; rw [if_pos hgap]; simp
    · rcases hpb : pickBest maxLink used d current (lookupDay dc d) none with
        _ | ⟨best, s⟩
      · have heq : growChain dc maxLink maxGap (d :: rest) current used traj =
            growChain dc maxLink maxGap rest current used traj := by
          simp only [growChain]; rw [if_neg hgap, hpb]
        rw [heq]
        exact ih current used traj hsort.of_cons
          (fun d' hd' => hlt d' (List.mem_cons_of_mem _ hd'))
      · have hbm : best ∈ lookupDay dc d := by
          rcases pickBest_sound maxLink used d current (lookupDay dc d) none
            with h | ⟨c, s', hc, hm, hu⟩
          · rw [hpb] at h; exact absurd h (by simp)
          · rw [hpb] at hc
            obtain ⟨hc1, -⟩ := Prod.mk.injEq .. ▸ Option.some.inj hc
            rw [hc1]; exact hm
        have hdate : best.date = d := lookupDay_date hwf d best hbm
        have heq : growChain dc maxLink maxGap (d :: rest) current used traj =
            growChain dc maxLink maxGap rest best ((d, best.cid) :: used)
              (traj ++ [best]) := by
          simp only [growChain]; rw [if_neg hgap, hpb]
        rw [heq]
        obtain ⟨Δ', e1, hch⟩ :=
          ih best ((d, best.cid) :: used) (traj ++ [best])
            hsort.of_cons
            (fun d' hd' => by
              rw [hdate]
              exact (List.pairwise_cons.mp hsort).1 d' hd')
        refine ⟨best :: Δ', by rw [e1, List.append_assoc]; rfl, ?_⟩
        refine List.Chain.cons ⟨?_, ?_⟩ hch
        · rw [hdate]
          exact hlt d (List.mem_cons_self _ _)
        · rw [hdate]
          omega

theorem startDay_fresh {dc : List (ℕ × List Cluster)} (hwf : WFdc dc)
    (maxLink : ℚ) (maxGap : ℕ) (d : ℕ) (rest : List ℕ) :
    ∀ (cs : List Cluster), (∀ c ∈ cs, c.date = d) →
    ∀ (trajs : List (List Cluster)) (used : List (ℕ × ℤ)),
      (∃ pre, (startDay dc maxLink maxGap d rest cs trajs used).2 =
        pre ++ used) ∧
      (∀ t ∈ (startDay dc maxLink maxGap d rest cs trajs used).1,
        t ∈ trajs ∨ ∀ k ∈ trajKeys t, k ∉ used) := by
  intro cs
  induction cs with
  | nil =>
    intro _ trajs used
    exact ⟨⟨[], rfl⟩, fun t ht => Or.inl ht⟩
  | cons c cs' ih =>
    intro hcs trajs used
    by_cases hk : (d, c.cid) ∈ used
    · have heq : startDay dc maxLink maxGap d rest (c :: cs') trajs used =
          startDay dc maxLink maxGap d rest cs' trajs used := by
        simp only [startDay]; rw [if_pos hk]
      rw [heq]
      exact ih (fun c' hc' => hcs c' (List.mem_cons_of_mem _ hc')) trajs used
    · obtain ⟨Δ, e1, e2, h3, -⟩ := growChain_spec hwf maxLink maxGap rest c
        ((d, c.cid) :: used) [c]
      have heq : startDay dc maxLink maxGap d rest (c :: cs') trajs used =
          startDay dc maxLink maxGap d rest cs'
            (if 5 ≤ (growChain dc maxLink maxGap rest c
                ((d, c.cid) :: used) [c]).1.length
             then trajs ++ [(growChain dc maxLink maxGap rest c
                ((d, c.cid) :: used) [c]).1]
             else trajs)
            (growChain dc maxLink maxGap rest c ((d, c.cid) :: used) [c]).2
          := by
        simp only [startDay]; rw [if_neg hk]
      rw [heq]
      obtain ⟨⟨pre', hpre'⟩, hnew⟩ :=
        ih (fun c' hc' => hcs c' (List.mem_cons_of_mem _ hc'))
          (if 5 ≤ (growChain dc maxLink maxGap rest c
              ((d, c.cid) :: used) [c]).1.length
           then trajs ++ [(growChain dc maxLink maxGap rest c
              ((d, c.cid) :: used) [c]).1]
           else trajs)
          (growChain dc maxLink maxGap rest c ((d, c.cid) :: used) [c]).2
      have hckey : keyOf c = (d, c.cid) := by
        rw [keyOf, hcs c (List.mem_cons_self _ _)]
      have hgkeys : ∀ k ∈ trajKeys (growChain dc maxLink maxGap rest c
          ((d, c.cid) :: used) [c]).1, k ∉ used := by
        intro k hkm
        rw [e1] at hkm
        simp only [trajKeys, List.map_append, List.mem_append,
          List.map_cons, List.map_nil, List.mem_singleton] at hkm
        rcases hkm with hkm | hkm
        · rw [hkm, hckey]; exact hk
        · obtain ⟨b, hb, hbk⟩ := List.mem_map.mp hkm
          intro hku
          exact h3 b hb (by rw [hbk]; exact List.mem_cons_of_mem _ hku)
      constructor
      · refine ⟨pre' ++ ((trajKeys Δ).reverse ++ [(d, c.cid)]), ?_⟩
        rw [hpre', e2]
        simp [List.append_assoc]
      · intro t ht
        rcases hnew t ht with htin | hfr
        · by_cases hlen : 5 ≤ (growChain dc maxLink maxGap rest c
              ((d, c.cid) :: used) [c]).1.length
          · rw [if_pos hlen] at htin
            rcases List.mem_append.mp htin with h | h
            · exact Or.inl h
            · right
              rw [List.mem_singleton.mp h]
              exact hgkeys
          · rw [if_neg hlen] at htin
            exact Or.inl htin
        · right
          intro k hkt hku
          exact hfr k hkt (by rw [e2]; simp [hku])

theorem trackOuter_fresh {dc : List (ℕ × List Cluster)} (hwf : WFdc dc)
    (maxLink : ℚ) (maxGap : ℕ) :
    ∀ (dates : List ℕ) (trajs : List (List Cluster)) (used : List (ℕ × ℤ)),
      (∃ pre, (trackOuter dc maxLink maxGap dates trajs used).2 =
        pre ++ used) ∧
      (∀ t ∈ (trackOuter dc maxLink maxGap dates trajs used).1,
        t ∈ trajs ∨ ∀ k ∈ trajKeys t, k ∉ used) := by
  intro dates
  induction dates with
  | nil =>
    intro trajs used
    exact ⟨⟨[], rfl⟩, fun t ht => Or.inl ht⟩
  | cons d rest ih =>
    intro trajs used
    have heq : trackOuter dc maxLink maxGap (d :: rest) trajs used =
        trackOuter dc maxLink maxGap rest
          (startDay dc maxLink maxGap d rest (lookupDay dc d) trajs used).1
          (startDay dc maxLink maxGap d rest (lookupDay dc d) trajs used).2
        := by
      simp only [trackOuter]
    rw [heq]
    obtain ⟨⟨pre1, hpre1⟩, hnew1⟩ := startDay_fresh hwf maxLink maxGap d rest
      (lookupDay dc d) (fun c hc => lookupDay_date hwf d c hc) trajs used
    obtain ⟨⟨pre2, hpre2⟩, hnew2⟩ := ih
      (startDay dc maxLink maxGap d rest (lookupDay dc d) trajs used).1
      (startDay dc maxLink maxGap d rest (lookupDay dc d) trajs used).2
    constructor
    · exact ⟨pre2 ++ pre1, by rw [hpre2, hpre1, List.append_assoc]⟩
    · intro t ht
      rcases hnew2 t ht with htin | hfr
      · rcases hnew1 t htin with h | h
        · exact Or.inl h
        · exact Or.inr h
      · right
        intro k hkt hku
        exact hfr k hkt (by rw [hpre1]; simp [hku])

/-- C4: when the chain grown from an unused start cluster stays below the
minimum trajectory length 5, the inner loop appends nothing and simply
continues with the grown `used` set; every cluster of the discarded chain
is marked used, and no trajectory produced later — by the rest of the same
day's loop or by any continuation of the outer loop from that `used`
state — contains any of the chain's clusters. -/
theorem short_chain_discarded_consumes
    (dc : List (ℕ × List Cluster)) (maxLink : ℚ) (maxGap : ℕ)
    (d : ℕ) (rest : List ℕ) (c : Cluster) (cs : List Cluster)
    (trajs : List (List Cluster)) (used : List (ℕ × ℤ))
    (hwf : WFdc dc) (hcd : c.date = d) (hcs : ∀ c' ∈ cs, c'.date = d)
    (hfresh : (d, c.cid) ∉ used)
    (hshort :
      (growChain dc maxLink maxGap rest c ((d, c.cid) :: used) [c]).1.length
        < 5) :
    (startDay dc maxLink maxGap d rest (c :: cs) trajs used =
      startDay dc maxLink maxGap d rest cs trajs
        (growChain dc maxLink maxGap rest c ((d, c.cid) :: used) [c]).2) ∧
    (∀ k ∈ trajKeys
        (growChain dc maxLink maxGap rest c ((d, c.cid) :: used) [c]).1,
      k ∈ (growChain dc maxLink maxGap rest c ((d, c.cid) :: used) [c]).2) ∧
    (∀ t ∈ (startDay dc maxLink maxGap d rest cs trajs
        (growChain dc maxLink maxGap rest c ((d, c.cid) :: used) [c]).2).1,
      t ∉ trajs → ∀ k ∈ trajKeys t, k ∉ trajKeys
        (growChain dc maxLink maxGap rest c ((d, c.cid) :: used) [c]).1) ∧
    (∀ (dates2 : List ℕ) (trajs2 : List (List Cluster)),
      ∀ t ∈ (trackOuter dc maxLink maxGap dates2 trajs2
        (growChain dc maxLink maxGap rest c ((d, c.cid) :: used) [c]).2).1,
      t ∉ trajs2 → ∀ k ∈ trajKeys t, k ∉ trajKeys
        (growChain dc maxLink maxGap rest c ((d, c.cid) :: used) [c]).1) ∧
    ((growChain dc maxLink maxGap rest c ((d, c.cid) :: used) [c]).1 ∈
        (startDay dc maxLink maxGap d rest cs trajs
          (growChain dc maxLink maxGap rest c
            ((d, c.cid) :: used) [c]).2).1 →
      (growChain dc maxLink maxGap rest c ((d, c.cid) :: used) [c]).1 ∈
        trajs) ∧
    (∀ (dates2 : List ℕ) (trajs2 : List (List Cluster)),
      (growChain dc maxLink maxGap rest c ((d, c.cid) :: used) [c]).1 ∈
        (trackOuter dc maxLink maxGap dates2 trajs2
          (growChain dc maxLink maxGap rest c
            ((d, c.cid) :: used) [c]).2).1 →
      (growChain dc maxLink maxGap rest c ((d, c.cid) :: used) [c]).1 ∈
        trajs2) := by
  obtain ⟨Δ, e1, e2, h3, -⟩ := growChain_spec hwf maxLink maxGap rest c
    ((d, c.cid) :: used) [c]
  have hckey : keyOf c = (d, c.cid) := by rw [keyOf, hcd]
  have hsub : ∀ k ∈ trajKeys
      (growChain dc maxLink maxGap rest c ((d, c.cid) :: used) [c]).1,
      k ∈ (growChain dc maxLink maxGap rest c ((d, c.cid) :: used) [c]).2
      := by
    intro k hkm
    rw [e1] at hkm
    rw [e2]
    simp only [trajKeys, List.map_append, List.mem_append, List.map_cons,
      List.map_nil, List.mem_singleton] at hkm
    rcases hkm with hkm | hkm
    · rw [hkm, hckey]
      simp
    · exact List.mem_append.mpr (Or.inl (by
        rw [List.mem_reverse]; exact hkm))
  have hkc : keyOf c ∈ trajKeys
      (growChain dc maxLink maxGap rest c ((d, c.cid) :: used) [c]).1 := by
    rw [e1]
    simp [trajKeys]
  have hlater1 : ∀ t ∈ (startDay dc maxLink maxGap d rest cs trajs
      (growChain dc maxLink maxGap rest c ((d, c.cid) :: used) [c]).2).1,
      t ∉ trajs → ∀ k ∈ trajKeys t, k ∉ trajKeys
        (growChain dc maxLink maxGap rest c ((d, c.cid) :: used) [c]).1 := by
    intro t ht htn k hkt hkg
    obtain ⟨-, hnew⟩ := startDay_fresh hwf maxLink maxGap d rest cs hcs trajs
      (growChain dc maxLink maxGap rest c ((d, c.cid) :: used) [c]).2
    rcases hnew t ht with h | h
    · exact htn h
    · exact h k hkt (hsub k hkg)
  have hlater2 : ∀ (dates2 : List ℕ) (trajs2 : List (List Cluster)),
      ∀ t ∈ (trackOuter dc maxLink maxGap dates2 trajs2
        (growChain dc maxLink maxGap rest c ((d, c.cid) :: used) [c]).2).1,
      t ∉ trajs2 → ∀ k ∈ trajKeys t, k ∉ trajKeys
        (growChain dc maxLink maxGap rest c ((d, c.cid) :: used) [c]).1 := by
    intro dates2 trajs2 t ht htn k hkt hkg
    obtain ⟨-, hnew⟩ := trackOuter_fresh hwf maxLink maxGap dates2 trajs2
      (growChain dc maxLink maxGap rest c ((d, c.cid) :: used) [c]).2
    rcases hnew t ht with h | h
    · exact htn h
    · exact h k hkt (hsub k hkg)
  refine ⟨?_, hsub, hlater1, hlater2, ?_, ?_⟩
  · simp only [startDay]
    rw [if_neg hfresh, if_neg (by omega)]
  · intro hmem
    by_contra hno
    exact hlater1 _ hmem hno (keyOf c) hkc hkc
  · intro dates2 trajs2 hmem
    by_contra hno
    exact hlater2 dates2 trajs2 _ hmem hno (keyOf c) hkc hkc

/-- A single cluster on day 0 (used to exercise the short-chain case). -/
def c4c : Cluster := ⟨0, 0, 6, 20, 6, 6, 8, 1, 1⟩

/-- A one-day input: any chain started from `c4c` has length 1 < 5. -/
def c4dc : List (ℕ × List Cluster) := [(0, [c4c])]

theorem short_chain_discarded_consumes_witness :
    (WFdc c4dc ∧ c4c.date = 0 ∧ (0, c4c.cid) ∉ ([] : List (ℕ × ℤ)) ∧
     (growChain c4dc 25 3 [] c4c [(0, c4c.cid)] [c4c]).1.length < 5) ∧
    (startDay c4dc 25 3 0 [] [c4c] [] [] =
      startDay c4dc 25 3 0 [] [] []
        (growChain c4dc 25 3 [] c4c [(0, c4c.cid)] [c4c]).2) ∧
    (∀ k ∈ trajKeys (growChain c4dc 25 3 [] c4c [(0, c4c.cid)] [c4c]).1,
      k ∈ (growChain c4dc 25 3 [] c4c [(0, c4c.cid)] [c4c]).2) :=
  ⟨⟨by decide, by decide, by decide, by decide⟩,
   (short_chain_discarded_consumes c4dc 25 3 0 [] c4c [] [] []
      (by decide) (by decide) (by decide) (by decide) (by decide)).1,
   (short_chain_discarded_consumes c4dc 25 3 0 [] c4c [] [] []
      (by decide) (by decide) (by decide) (by decide) (by decide)).2.1⟩

/-- Every kept trajectory's keys are recorded in the `used` set. -/
def UsedInv (trajs : List (List Cluster)) (used : List (ℕ × ℤ)) : Prop :=
  ∀ t ∈ trajs, ∀ k ∈ trajKeys t, k ∈ used

/-- Pairwise disjointness of the kept trajectories' cluster keys. -/
def DisjointTrajs (trajs : List (List Cluster)) : Prop :=
  trajs.Pairwise fun t1 t2 => ∀ k ∈ trajKeys t1, k ∉ trajKeys t2

theorem startDay_inv {dc : List (ℕ × List Cluster)} (hwf : WFdc dc)
    (maxLink : ℚ) (maxGap : ℕ) (d : ℕ) (rest : List ℕ)
    (hsort : (d :: rest).Pairwise (· < ·)) :
    ∀ (cs : List Cluster), (∀ c ∈ cs, c.date = d) →
    ∀ (trajs : List (List Cluster)) (used : List (ℕ × ℤ)),
      UsedInv trajs used → DisjointTrajs trajs →
      UsedInv (startDay dc maxLink maxGap d rest cs trajs used).1
        (startDay dc maxLink maxGap d rest cs trajs used).2 ∧
      DisjointTrajs (startDay dc maxLink maxGap d rest cs trajs used).1 ∧
      (∀ t ∈ (startDay dc maxLink maxGap d rest cs trajs used).1,
        t ∈ trajs ∨ (5 ≤ t.length ∧ DateChain maxGap t)) := by
  intro cs
  induction cs with
  | nil =>
    intro _ trajs used hu hd
    exact ⟨hu, hd, fun t ht => Or.inl ht⟩
  | cons c cs' ih =>
    intro hcs trajs used hu hd
    by_cases hk : (d, c.cid) ∈ used
    · have heq : startDay dc maxLink maxGap d rest (c :: cs') trajs used =
          startDay dc maxLink maxGap d rest cs' trajs used := by
        simp only [startDay]; rw [if_pos hk]
      rw [heq]
      exact ih (fun c' hc' => hcs c' (List.mem_cons_of_mem _ hc'))
        trajs used hu hd
    · have hcd : c.date = d := hcs c (List.mem_cons_self _ _)
      have hckey : keyOf c = (d, c.cid) := by rw [keyOf, hcd]
      obtain ⟨Δ, e1, e2, h3, -⟩ := growChain_spec hwf maxLink maxGap rest c
        ((d, c.cid) :: used) [c]
      have heq : startDay dc maxLink maxGap d rest (c :: cs') trajs used =
          startDay dc maxLink maxGap d rest cs'
            (if 5 ≤ (growChain dc maxLink maxGap rest c
                ((d, c.cid) :: used) [c]).1.length
             then trajs ++ [(growChain dc maxLink maxGap rest c
                ((d, c.cid) :: used) [c]).1]
             else trajs)
            (growChain dc maxLink maxGap rest c ((d, c.cid) :: used) [c]).2
          := by
        simp only [startDay]; rw [if_neg hk]
      rw [heq]
      -- keys of the grown chain avoid the incoming `used` set
      have hgfresh : ∀ k ∈ trajKeys (growChain dc maxLink maxGap rest c
          ((d, c.cid) :: used) [c]).1, k ∉ used := by
        intro k hkm
        rw [e1] at hkm
        simp only [trajKeys, List.map_append, List.mem_append,
          List.map_cons, List.map_nil, List.mem_singleton] at hkm
        rcases hkm with hkm | hkm
        · rw [hkm, hckey]; exact hk
        · obtain ⟨b, hb, hbk⟩ := List.mem_map.mp hkm
          intro hku
          exact h3 b hb (by rw [hbk]; exact List.mem_cons_of_mem _ hku)
      -- keys of the grown chain are recorded in the grown `used` set
      have hgsub : ∀ k ∈ trajKeys (growChain dc maxLink maxGap rest c
          ((d, c.cid) :: used) [c]).1,
          k ∈ (growChain dc maxLink maxGap rest c
            ((d, c.cid) :: used) [c]).2 := by
        intro k hkm
        rw [e1] at hkm
        rw [e2]
        simp only [trajKeys, List.map_append, List.mem_append,
          List.map_cons, List.map_nil, List.mem_singleton] at hkm
        rcases hkm with hkm | hkm
        · rw [hkm, hckey]; simp
        · exact List.mem_append.mpr (Or.inl (by
            rw [List.mem_reverse]; exact hkm))
      -- the grown `used` set extends the incoming one
      have hgext : ∀ k ∈ used, k ∈ (growChain dc maxLink maxGap rest c
          ((d, c.cid) :: used) [c]).2 := by
        intro k hku
        rw [e2]
        simp [hku]
      -- the grown chain respects the date discipline
      have hgchain : DateChain maxGap (growChain dc maxLink maxGap rest c
          ((d, c.cid) :: used) [c]).1 := by
        obtain ⟨Δc, ec, hch⟩ := growChain_chain hwf maxLink maxGap rest c
          ((d, c.cid) :: used) [c] hsort.of_cons
          (fun d' hd' => by
            rw [hcd]; exact (List.pairwise_cons.mp hsort).1 d' hd')
        rw [ec]
        exact hch
      -- invariants for the recursive call
      have hu' : UsedInv
          (if 5 ≤ (growChain dc maxLink maxGap rest c
              ((d, c.cid) :: used) [c]).1.length
           then trajs ++ [(growChain dc maxLink maxGap rest c
              ((d, c.cid) :: used) [c]).1]
           else trajs)
          (growChain dc maxLink maxGap rest c ((d, c.cid) :: used) [c]).2
          := by
        by_cases hlen : 5 ≤ (growChain dc maxLink maxGap rest c
            ((d, c.cid) :: used) [c]).1.length
        · rw [if_pos hlen]
          intro t ht k hkt
          rcases List.mem_append.mp ht with h | h
          · exact hgext k (hu t h k hkt)
          · rw [List.mem_singleton.mp h] at hkt
            exact hgsub k hkt
        · rw [if_neg hlen]
          intro t ht k hkt
          exact hgext k (hu t ht k hkt)
      have hd' : DisjointTrajs
          (if 5 ≤ (growChain dc maxLink maxGap rest c
              ((d, c.cid) :: used) [c]).1.length
           then trajs ++ [(growChain dc maxLink maxGap rest c
              ((d, c.cid) :: used) [c]).1]
           else trajs) := by
        by_cases hlen : 5 ≤ (growChain dc maxLink maxGap rest c
            ((d, c.cid) :: used) [c]).1.length
        · rw [if_pos hlen]
          unfold DisjointTrajs
          rw [List.pairwise_append]
          refine ⟨hd, List.pairwise_singleton _ _, ?_⟩
          intro t ht t' ht' k hkt
          rw [List.mem_singleton.mp ht']
          intro hkg
          exact hgfresh k hkg (hu t ht k hkt)
        · rw [if_neg hlen]; exact hd
      obtain ⟨hu2, hd2, hnew2⟩ :=
        ih (fun c' hc' => hcs c' (List.mem_cons_of_mem _ hc')) _ _ hu' hd'
      refine ⟨hu2, hd2, ?_⟩
      intro t ht
      rcases hnew2 t ht with htin | hok
      · by_cases hlen : 5 ≤ (growChain dc maxLink maxGap rest c
            ((d, c.cid) :: used) [c]).1.length
        · rw [if_pos hlen] at htin
          rcases List.mem_append.mp htin with h | h
          · exact Or.inl h
          · right
            rw [List.mem_singleton.mp h]
            exact ⟨hlen, hgchain⟩
        · rw [if_neg hlen] at htin
          exact Or.inl htin
      · exact Or.inr hok

theorem trackOuter_inv {dc : List (ℕ × List Cluster)} (hwf : WFdc dc)
    (maxLink : ℚ) (maxGap : ℕ) :
    ∀ (dates : List ℕ), dates.Pairwise (· < ·) →
    ∀ (trajs : List (List Cluster)) (used : List (ℕ × ℤ)),
      UsedInv trajs used → DisjointTrajs trajs →
      UsedInv (trackOuter dc maxLink maxGap dates trajs used).1
        (trackOuter dc maxLink maxGap dates trajs used).2 ∧
      DisjointTrajs (trackOuter dc maxLink maxGap dates trajs used).1 ∧
      (∀ t ∈ (trackOuter dc maxLink maxGap dates trajs used).1,
        t ∈ trajs ∨ (5 ≤ t.length ∧ DateChain maxGap t)) := by
  intro dates
  induction dates with
  | nil =>
    intro _ trajs used hu hd
    exact ⟨hu, hd, fun t ht => Or.inl ht⟩
  | cons d rest ih =>
    intro hsort trajs used hu hd
    have heq : trackOuter dc maxLink maxGap (d :: rest) trajs used =
        trackOuter dc maxLink maxGap rest
          (startDay dc maxLink maxGap d rest (lookupDay dc d) trajs used).1
          (startDay dc maxLink maxGap d rest (lookupDay dc d) trajs used).2
        := by
      simp only [trackOuter]
    rw [heq]
    obtain ⟨hu1, hd1, hnew1⟩ := startDay_inv hwf maxLink maxGap d rest hsort
      (lookupDay dc d) (fun c hc => lookupDay_date hwf d c hc)
      trajs used hu hd
    obtain ⟨hu2, hd2, hnew2⟩ := ih hsort.of_cons _ _ hu1 hd1
    refine ⟨hu2, hd2, ?_⟩
    intro t ht
    rcases hnew2 t ht with htin | hok
    · exact hnew1 t htin
    · exact Or.inr hok

theorem sortedDates_strict (dc : List (ℕ × List Cluster))
    (hnd : (dc.map (·.1)).Nodup) :
    (sortedDates dc).Pairwise (· < ·) := by
  unfold sortedDates
  have hs := List.sorted_insertionSort (· ≤ ·)
    (dc.map (fun p : ℕ × List Cluster => p.1))
  have hn := (List.Perm.nodup_iff (List.perm_insertionSort (· ≤ ·)
    (dc.map (fun p : ℕ × List Cluster => p.1)))).mpr hnd
  exact (List.Pairwise.and hs hn).imp fun h => lt_of_le_of_ne h.1 h.2

/-- C3: trajectories returned by one `track_clusters` call are pairwise
disjoint on their member clusters' `(date, cid)` keys (the global `used`
marking forbids reuse). -/
theorem track_clusters_disjoint (dc : List (ℕ × List Cluster))
    (maxLink : ℚ) (maxGap : ℕ) (hwf : WFdc dc)
    (hnd : (dc.map (·.1)).Nodup) :
    (track_clusters dc maxLink maxGap).Pairwise
      fun t1 t2 => ∀ k ∈ trajKeys t1, k ∉ trajKeys t2 := by
  have h := trackOuter_inv hwf maxLink maxGap (sortedDates dc)
    (sortedDates_strict dc hnd) [] []
    (fun t ht => absurd ht (List.not_mem_nil t)) List.Pairwise.nil
  exact h.2.1

/-- Two single-cluster days, one day apart. -/
def ex3dc : List (ℕ × List Cluster) :=
  [(0, [⟨0, 0, 6, 20, 6, 6, 8, 1, 1⟩]), (1, [⟨1, 0, 6, 20, 6, 6, 8, 1, 1⟩])]

theorem track_clusters_disjoint_witness :
    (WFdc ex3dc ∧ (ex3dc.map (·.1)).Nodup) ∧
    (track_clusters ex3dc 25 3).Pairwise
      (fun t1 t2 => ∀ k ∈ trajKeys t1, k ∉ trajKeys t2) :=
  ⟨⟨by decide, by decide⟩,
   track_clusters_disjoint ex3dc 25 3 (by decide) (by decide)⟩

/-- C5: every trajectory returned by `track_clusters` has strictly
increasing member dates, with each consecutive pair at most `max_gap_days`
apart (the gap window re-anchors at each newly appended cluster). -/
theorem track_clusters_dates (dc : List (ℕ × List Cluster))
    (maxLink : ℚ) (maxGap : ℕ) (hwf : WFdc dc)
    (hnd : (dc.map (·.1)).Nodup) :
    ∀ t ∈ track_clusters dc maxLink maxGap,
      t.Chain' fun a b =>
        a.date < b.date ∧ (b.date : ℤ) - (a.date : ℤ) ≤ (maxGap : ℤ) := by
  intro t ht
  have h := trackOuter_inv hwf maxLink maxGap (sortedDates dc)
    (sortedDates_strict dc hnd) [] []
    (fun t' ht' => absurd ht' (List.not_mem_nil t')) List.Pairwise.nil
  rcases h.2.2 t ht with hin | hok
  · exact absurd hin (List.not_mem_nil t)
  · exact hok.2

theorem track_clusters_dates_witness :
    (WFdc ex3dc ∧ (ex3dc.map (·.1)).Nodup) ∧
    (∀ t ∈ track_clusters ex3dc 25 3,
      t.Chain' fun a b =>
        a.date < b.date ∧ (b.date : ℤ) - (a.date : ℤ) ≤ ((3 : ℕ) : ℤ)) :=
  ⟨⟨by decide, by decide⟩,
   track_clusters_dates ex3dc 25 3 (by decide) (by decide)⟩
